import Mathlib

/-!
Shallow embedding of the `whiteboard` Rust application (src/lib.rs, src/state.rs,
src/colors.rs, src/tools.rs, src/undo.rs) and proofs about its stroke model,
undo history, selection engine, eraser, and persistence codec.

Modelling conventions:
* `f32` values are modelled as exact rationals (`ℚ`).  All arithmetic the
  embedded code performs on coordinates and widths (`+`, `-`, `*`, `/`, `min`,
  `max`, `clamp`, comparisons) is mirrored exactly; finite floats embed into ℚ.
* `u8` color channels are modelled as `Fin 256`.
* Rust `panic` sites (out-of-bounds indexing) are modelled with `Option`,
  `none` standing for a panic.
* `HashSet<usize>` is modelled as `Finset Nat`; where the Rust code iterates a
  hash set in unspecified order, the embedding iterates in ascending order and
  the surrounding theorems do not depend on the order.
* `VecDeque<UndoAction>` is modelled as a `List` whose head is the front
  (oldest) element; `push_back` appends at the end, `pop_front` drops the
  head, `pop_back` removes the last element.
-/

/-- Rust `egui::Pos2` restricted to the fields the whiteboard uses.  Also
stands for `state.rs`'s `Pos { x: f32, y: f32 }`, which mirrors `Pos2`
field-for-field (the two `From` impls copy `x` and `y` unchanged). -/
structure Pos2 where
  x : ℚ
  y : ℚ
deriving DecidableEq, Repr

/-- Rust `egui::Color32`: four bytes `r, g, b, a` (premultiplied storage;
`Color32` is `pub struct Color32(pub(crate) [u8; 4])` and indexing yields the
raw bytes in r,g,b,a order). -/
structure Color32 where
  r : Fin 256
  g : Fin 256
  b : Fin 256
  a : Fin 256
deriving DecidableEq, Repr

/-- Rust `Line { points: Vec<Pos2>, color: Color32, width: f32 }` from
src/lib.rs. -/
structure Line where
  points : List Pos2
  color : Color32
  width : ℚ
deriving DecidableEq, Repr

/-- Rust `enum Tool { Brush, Eraser, Selection }` from src/tools.rs. -/
inductive Tool where
  | Brush
  | Eraser
  | Selection
deriving DecidableEq, Repr

/-- Rust `enum ResizeCorner` from src/lib.rs. -/
inductive ResizeCorner where
  | TopLeft
  | TopRight
  | BottomLeft
  | BottomRight
deriving DecidableEq, Repr

/-- Rust `enum UndoAction { Erase(Line), Draw(Line) }` from src/undo.rs. -/
inductive UndoAction where
  | Erase (line : Line)
  | Draw (line : Line)
deriving DecidableEq, Repr

/-- Rust `UndoStack { stack: VecDeque<UndoAction> }` from src/undo.rs.  The
list head is the front (oldest) entry of the deque. -/
structure UndoStack where
  stack : List UndoAction
deriving DecidableEq, Repr

/-- Rust `const MAX_UNDO_STACK_SIZE: usize = 100` from src/undo.rs. -/
def MAX_UNDO_STACK_SIZE : Nat := 100

namespace UndoStack

/-- Rust `UndoStack::default()`. -/
def default : UndoStack := ⟨[]⟩

/-- Rust `UndoStack::add_erase`: `push_back(Erase(line))`, then if the length
exceeds `MAX_UNDO_STACK_SIZE`, `pop_front()` once. -/
def add_erase (s : UndoStack) (line : Line) : UndoStack :=
  let st := s.stack ++ [UndoAction.Erase line]
  ⟨if MAX_UNDO_STACK_SIZE < st.length then st.tail else st⟩

/-- Rust `UndoStack::add_draw`: `push_back(Draw(line))`, then if the length
exceeds `MAX_UNDO_STACK_SIZE`, `pop_front()` once. -/
def add_draw (s : UndoStack) (line : Line) : UndoStack :=
  let st := s.stack ++ [UndoAction.Draw line]
  ⟨if MAX_UNDO_STACK_SIZE < st.length then st.tail else st⟩

/-- Rust `UndoStack::extend_erase`: `stack.extend(erased.map(Erase))`, then a
single `if stack.len() > MAX_UNDO_STACK_SIZE { stack.pop_front(); }` — note
the check runs once per call, not once per inserted element. -/
def extend_erase (s : UndoStack) (erased : List Line) : UndoStack :=
  let st := s.stack ++ erased.map UndoAction.Erase
  ⟨if MAX_UNDO_STACK_SIZE < st.length then st.tail else st⟩

/-- Rust `UndoStack::pop`: `stack.pop_back()` — returns the most recently
pushed entry (or `none`) together with the remaining stack. -/
def pop (s : UndoStack) : Option UndoAction × UndoStack :=
  (s.stack.getLast?, ⟨s.stack.dropLast⟩)

end UndoStack

/-- Rust `egui::Rect { min: Pos2, max: Pos2 }`.  `Rect::NOTHING` (the inverted
rect with `min = +∞, max = -∞`) is not representable over ℚ; whenever the
whiteboard code can produce it, the embedding uses `Option Rect` with `none`
standing for `Rect::NOTHING` (see `line_bbox`, `get_selection_info`). -/
structure Rect where
  min : Pos2
  max : Pos2
deriving DecidableEq, Repr

namespace Rect

/-- Rust `Rect::width`: `max.x - min.x`. -/
def width (r : Rect) : ℚ := r.max.x - r.min.x

/-- Rust `Rect::height`: `max.y - min.y`. -/
def height (r : Rect) : ℚ := r.max.y - r.min.y

/-- Rust `Rect::contains(p)`: inclusive on all four edges. -/
def contains (r : Rect) (p : Pos2) : Bool :=
  decide (r.min.x ≤ p.x ∧ p.x ≤ r.max.x ∧ r.min.y ≤ p.y ∧ p.y ≤ r.max.y)

/-- Rust `Rect::intersects(other)`. -/
def intersects (r o : Rect) : Bool :=
  decide (r.min.x ≤ o.max.x ∧ o.min.x ≤ r.max.x ∧ r.min.y ≤ o.max.y ∧ o.min.y ≤ r.max.y)

/-- Rust `Rect::intersects` applied to a possibly-`NOTHING` second rect:
`rect.intersects(Rect::NOTHING)` is always false (`min.x ≤ -∞` fails). -/
def intersectsOpt (r : Rect) (o : Option Rect) : Bool :=
  match o with
  | none => false
  | some o => r.intersects o

/-- Rust `Rect::from_two_pos(a, b)`: componentwise min/max of the two
positions. -/
def from_two_pos (a b : Pos2) : Rect :=
  ⟨⟨Min.min a.x b.x, Min.min a.y b.y⟩, ⟨Max.max a.x b.x, Max.max a.y b.y⟩⟩

/-- Rust `Rect::from_center_size(c, s)`: `min = c - s/2`, `max = c + s/2`. -/
def from_center_size (c : Pos2) (sx sy : ℚ) : Rect :=
  ⟨⟨c.x - sx / 2, c.y - sy / 2⟩, ⟨c.x + sx / 2, c.y + sy / 2⟩⟩

/-- Rust `Rect::expand(by)`: grow the rect by `d` on every side. -/
def expand (r : Rect) (d : ℚ) : Rect :=
  ⟨⟨r.min.x - d, r.min.y - d⟩, ⟨r.max.x + d, r.max.y + d⟩⟩

/-- Rust `Rect::extend_with(p)`: `min = min.min(p)`, `max = max.max(p)`
componentwise. -/
def extend_with (r : Rect) (p : Pos2) : Rect :=
  ⟨⟨Min.min r.min.x p.x, Min.min r.min.y p.y⟩, ⟨Max.max r.max.x p.x, Max.max r.max.y p.y⟩⟩

end Rect

/-- Bounding box of a point list: the Rust code folds `Rect::extend_with`
starting from `Rect::NOTHING`, which yields `NOTHING` (here `none`) exactly
when the list is empty, and otherwise the componentwise min/max of the
points. -/
def line_bbox_points (points : List Pos2) : Option Rect :=
  match points with
  | [] => none
  | p :: rest => some (rest.foldl Rect.extend_with ⟨p, p⟩)

/-- Bounding box of a stroke's points (used by the marquee test in
`handle_selection`). -/
def line_bbox (line : Line) : Option Rect :=
  line_bbox_points line.points

/-- Rust `ColorPalette { colors: Vec<Color32>, active_color_index: usize }`
from src/colors.rs. -/
structure ColorPalette where
  colors : List Color32
  active_color_index : Nat
deriving DecidableEq, Repr

namespace ColorPalette

/-- Rust `ColorPalette::default()`: the five default colors
WHITE, RED, YELLOW, GREEN, BLUE with active index 0. -/
def default : ColorPalette :=
  ⟨[⟨255, 255, 255, 255⟩, ⟨255, 0, 0, 255⟩, ⟨255, 255, 0, 255⟩,
    ⟨0, 255, 0, 255⟩, ⟨0, 0, 255, 255⟩], 0⟩

/-- Rust `ColorPalette::set_active_color_index`: stores the index with no
bounds check. -/
def set_active_color_index (p : ColorPalette) (i : Nat) : ColorPalette :=
  { p with active_color_index := i }

/-- Rust `ColorPalette::get_current_color`: `self.colors[self.active_color_index]`.
The Rust indexing panics when the index is out of bounds; `none` models that
panic. -/
def get_current_color? (p : ColorPalette) : Option Color32 :=
  p.colors.get? p.active_color_index

/-- Rust `impl From<Vec<Color32>> for ColorPalette`: wraps the colors and
resets `active_color_index` to 0. -/
def from_colors (colors : List Color32) : ColorPalette :=
  ⟨colors, 0⟩

end ColorPalette

/-- Rust `struct WhiteboardApp` from src/lib.rs (all fields). -/
structure WhiteboardApp where
  lines : List Line
  current_line : List Pos2
  palette : ColorPalette
  stroke_width : ℚ
  current_tool : Tool
  undo_stack : UndoStack
  whiteboard_file : Option String
  selection_start : Option Pos2
  selection_current : Option Pos2
  selected_lines : Finset Nat
  is_moving_selection : Bool
  last_mouse_pos : Option Pos2
  resizing_corner : Option ResizeCorner
  resize_original_bbox : Option Rect
  resize_original_lines : List (Nat × Line)
deriving DecidableEq

namespace WhiteboardApp

/-- Rust `WhiteboardApp::default()`. -/
def default : WhiteboardApp where
  lines := []
  current_line := []
  palette := ColorPalette.default
  stroke_width := 3
  current_tool := Tool.Brush
  undo_stack := UndoStack.default
  whiteboard_file := none
  selection_start := none
  selection_current := none
  selected_lines := ∅
  is_moving_selection := false
  last_mouse_pos := none
  resizing_corner := none
  resize_original_bbox := none
  resize_original_lines := []

/-- Rust `WhiteboardApp::undo` (src/lib.rs): clears the selection, then pops
the undo stack; an `Erase` entry re-appends its stroke at the end of the
canvas, a `Draw` entry removes the last stroke (`lines.pop()`), and an empty
stack leaves everything else untouched. -/
def undo (st : WhiteboardApp) : WhiteboardApp :=
  let cleared := { st with selected_lines := (∅ : Finset Nat) }
  match cleared.undo_stack.pop with
  | (none, _) => cleared
  | (some (UndoAction.Erase line), rest) =>
      { cleared with undo_stack := rest, lines := cleared.lines ++ [line] }
  | (some (UndoAction.Draw _), rest) =>
      { cleared with undo_stack := rest, lines := cleared.lines.dropLast }

/-- Rust `WhiteboardApp::push_line` (src/lib.rs): appends the in-progress
points as a new stroke with the active palette color and current width,
records a `Draw` undo entry for the same stroke, and clears the in-progress
buffer.  `get_current_color` panics when the active index is out of bounds;
`none` models that panic. -/
def push_line (st : WhiteboardApp) : Option WhiteboardApp :=
  (st.palette.get_current_color?).map fun color =>
    { st with
      lines := st.lines ++ [⟨st.current_line, color, st.stroke_width⟩]
      undo_stack := st.undo_stack.add_draw ⟨st.current_line, color, st.stroke_width⟩
      current_line := [] }

/-- Brush commit step from `WhiteboardApp::update` (src/lib.rs):
`if response.drag_stopped() && self.current_tool == Tool::Brush
&& !self.current_line.is_empty() { self.push_line(); }` — the state change
performed on brush drag-stop.  Note the guard is only on emptiness: a
single-point line is committed too. -/
def commit_current_line (st : WhiteboardApp) : Option WhiteboardApp :=
  if st.current_line.isEmpty then some st else st.push_line

/-- Render guard from `WhiteboardApp::draw_previous_lines` (src/lib.rs): a
stroke is painted only when it has at least 2 points. -/
def rendered_lines (st : WhiteboardApp) : List Line :=
  st.lines.filter fun l => decide (2 ≤ l.points.length)

end WhiteboardApp

/-- Squared Euclidean distance between two positions (`Pos2::distance_sq`).
The Rust eraser compares `distance < radius`, i.e. `sqrt(distance_sq) <
radius`; over exact arithmetic and a nonnegative radius this is equivalent to
`distance_sq < radius^2`, which is how every comparison below is stated
(keeping the whole development inside ℚ). -/
def distance_sq (p q : Pos2) : ℚ :=
  (p.x - q.x) ^ 2 + (p.y - q.y) ^ 2

/-- Squared form of Rust `distance_point_to_segment` (src/lib.rs): if the
segment is degenerate (`a.distance_sq(b) == 0`) the distance to `a`;
otherwise the distance to the projection of `p` onto the segment with the
projection parameter `t` clamped to `[0, 1]` (`t.clamp(0.0, 1.0)` =
`min (max t 0) 1`). -/
def distance_sq_point_to_segment (p a b : Pos2) : ℚ :=
  let l2 := distance_sq a b
  if l2 = 0 then distance_sq p a
  else
    let t := ((p.x - a.x) * (b.x - a.x) + (p.y - a.y) * (b.y - a.y)) / l2
    let t := Min.min (Max.max t 0) 1
    let projection : Pos2 := ⟨a.x + t * (b.x - a.x), a.y + t * (b.y - a.y)⟩
    distance_sq p projection

/-- The eraser's per-stroke test from `WhiteboardApp::handle_eraser`
(src/lib.rs): the stroke is hit when some window of two consecutive points
(`line.points.windows(2)`, modelled as `points.zip points.tail`) lies within
`radius` of the pointer. -/
def line_hit (pointer_pos : Pos2) (radius : ℚ) (line : Line) : Bool :=
  (line.points.zip line.points.tail).any fun w =>
    decide (distance_sq_point_to_segment pointer_pos w.1 w.2 < radius ^ 2)

namespace WhiteboardApp

/-- Rust `WhiteboardApp::handle_eraser` (src/lib.rs): with
`erase_radius = stroke_width + 5.0`, partition the strokes into kept strokes
(no segment within the radius) and deleted strokes; when anything was
deleted, clear the selection and push the deleted strokes to the undo stack
as one erase batch. -/
def handle_eraser (st : WhiteboardApp) (pointer_pos : Pos2) : WhiteboardApp :=
  let erase_radius := st.stroke_width + 5
  let p := st.lines.partition fun line => !(line_hit pointer_pos erase_radius line)
  let kept := p.1
  let deleted_lines := p.2
  if deleted_lines.isEmpty then { st with lines := kept }
  else
    { st with
      lines := kept
      selected_lines := (∅ : Finset Nat)
      undo_stack := st.undo_stack.extend_erase deleted_lines }

/-- Rust `WhiteboardApp::get_selection_info` (src/lib.rs): `none` when the
selection is empty or contributes no points (`bounding_box == Rect::NOTHING`);
otherwise the bounding box of all points of all selected strokes, the box
expanded by 5 units, and the four corners of the expanded box in the order
top-left, top-right, bottom-left, bottom-right.  The Rust code iterates the
`HashSet` in unspecified order; min/max folding is order-independent, so the
embedding folds over all selected strokes' points in index order. -/
def get_selection_info (st : WhiteboardApp) :
    Option (Rect × Rect × (Pos2 × Pos2 × Pos2 × Pos2)) :=
  if st.selected_lines = ∅ then none
  else
    let pts := ((List.range st.lines.length).filter fun i =>
        decide (i ∈ st.selected_lines)).flatMap fun i =>
      match st.lines.get? i with
      | some line => line.points
      | none => []
    match line_bbox_points pts with
    | none => none
    | some bounding_box =>
        let expanded := bounding_box.expand 5
        some (bounding_box, expanded,
          (expanded.min, ⟨expanded.max.x, expanded.min.y⟩,
           ⟨expanded.min.x, expanded.max.y⟩, expanded.max))

/-- Rust `WhiteboardApp::start_resizing` (src/lib.rs): record the dragged
corner and the original bounding box, and snapshot `(index, line)` for every
selected stroke whose index is valid.  The `bbox` argument is `Option Rect`
so the caller can pass `Rect::NOTHING` (`none`) on the degenerate path in
`handle_selection`. -/
def start_resizing (st : WhiteboardApp) (corner : ResizeCorner)
    (bbox : Option Rect) : WhiteboardApp :=
  { st with
    resizing_corner := some corner
    resize_original_bbox := bbox
    resize_original_lines :=
      (st.selected_lines.sort (· ≤ ·)).filterMap fun i =>
        (st.lines.get? i).map fun line => (i, line) }

end WhiteboardApp

/-- New bounding box computed in `WhiteboardApp::update_resizing`
(src/lib.rs): move only the dragged corner, with a 5-unit inward margin at
the dragged edges. -/
def resize_new_bbox (corner : ResizeCorner) (pointer_pos : Pos2)
    (orig : Rect) : Rect :=
  match corner with
  | ResizeCorner.TopLeft => { orig with min := ⟨pointer_pos.x + 5, pointer_pos.y + 5⟩ }
  | ResizeCorner.TopRight =>
      ⟨⟨orig.min.x, pointer_pos.y + 5⟩, ⟨pointer_pos.x - 5, orig.max.y⟩⟩
  | ResizeCorner.BottomLeft =>
      ⟨⟨pointer_pos.x + 5, orig.min.y⟩, ⟨orig.max.x, pointer_pos.y - 5⟩⟩
  | ResizeCorner.BottomRight => { orig with max := ⟨pointer_pos.x - 5, pointer_pos.y - 5⟩ }

/-- Per-point remap from `WhiteboardApp::update_resizing` (src/lib.rs):
`line.points.iter_mut().zip(&orig_line.points)` overwrites the first
`min (cur.length) (orig.length)` current points with
`new_min + (orig_point - orig_min) * scale` per axis and leaves any current
points beyond the snapshot untouched. -/
def remap_resize_points (cur orig : List Pos2) (orig_min new_min : Pos2)
    (scale_x scale_y : ℚ) : List Pos2 :=
  (cur.zipWith (fun _ op =>
      (⟨new_min.x + (op.x - orig_min.x) * scale_x,
        new_min.y + (op.y - orig_min.y) * scale_y⟩ : Pos2)) orig)
    ++ cur.drop orig.length

/-- The X scale factor in `update_resizing`: `new_bbox.width() /
orig_bbox.width()` when `orig_bbox.width() > 0.0`, else `1.0`. -/
def resize_scale_x (orig_bbox new_bbox : Rect) : ℚ :=
  if 0 < orig_bbox.width then new_bbox.width / orig_bbox.width else 1

/-- The Y scale factor in `update_resizing`. -/
def resize_scale_y (orig_bbox new_bbox : Rect) : ℚ :=
  if 0 < orig_bbox.height then new_bbox.height / orig_bbox.height else 1

/-- One iteration of the `for (i, orig_line) in &self.resize_original_lines`
loop of `update_resizing`: if index `e.1` is still valid
(`self.lines.get_mut(*i)`), overwrite that stroke's points with the remap of
the snapshot `e.2`. -/
def resize_step (orig_min new_min : Pos2) (scale_x scale_y : ℚ)
    (ls : List Line) (e : Nat × Line) : List Line :=
  match ls.get? e.1 with
  | none => ls
  | some cur =>
      ls.set e.1 { cur with
        points := remap_resize_points cur.points e.2.points orig_min new_min
          scale_x scale_y }

namespace WhiteboardApp

/-- Rust `WhiteboardApp::update_resizing` (src/lib.rs): when an original
bounding box was snapshotted, compute the new box by moving the dragged
corner, derive independent X/Y scale factors (`new/orig` extent when the
original extent is positive, else `1.0`), and remap every snapshotted
stroke's points whose index is still valid.  When `resize_original_bbox` is
`none` nothing happens (the Rust `Some(Rect::NOTHING)` path would compute
non-finite garbage; it is unreachable from the theorems below). -/
def update_resizing (st : WhiteboardApp) (pointer_pos : Pos2)
    (corner : ResizeCorner) : WhiteboardApp :=
  match st.resize_original_bbox with
  | none => st
  | some orig_bbox =>
      let new_bbox := resize_new_bbox corner pointer_pos orig_bbox
      { st with
        lines := st.resize_original_lines.foldl
          (resize_step orig_bbox.min new_bbox.min
            (resize_scale_x orig_bbox new_bbox) (resize_scale_y orig_bbox new_bbox))
          st.lines }

end WhiteboardApp

/-- The pointer-gesture phases `handle_selection` distinguishes via
`response.drag_started() / dragged() / drag_stopped() / clicked()`. -/
inductive PointerEvent where
  | dragStarted
  | dragged
  | dragStopped
  | clicked
deriving DecidableEq, Repr

namespace WhiteboardApp

/-- Rust `WhiteboardApp::handle_selection` (src/lib.rs), one gesture phase at
a time.  When `get_selection_info` is `none` the Rust code substitutes
`(Rect::NOTHING, Rect::NOTHING, [Pos2::ZERO; 4])`: all four 10×10 corner hit
rects then coincide on the square around the origin (so the first matching
check, top-left, wins) and `Rect::NOTHING.contains` is always false; the
`none` branches below spell that out. -/
def handle_selection (st : WhiteboardApp) (ev : PointerEvent)
    (pointer_pos : Pos2) : WhiteboardApp :=
  let info := st.get_selection_info
  match ev with
  | PointerEvent.dragStarted =>
    (match info with
     | some (bounding_box, expanded_bbox, corners) =>
        let tl_rect := Rect.from_center_size corners.1 10 10
        let tr_rect := Rect.from_center_size corners.2.1 10 10
        let bl_rect := Rect.from_center_size corners.2.2.1 10 10
        let br_rect := Rect.from_center_size corners.2.2.2 10 10
        if st.selected_lines ≠ ∅ ∧ tl_rect.contains pointer_pos = true then
          st.start_resizing ResizeCorner.TopLeft (some bounding_box)
        else if st.selected_lines ≠ ∅ ∧ tr_rect.contains pointer_pos = true then
          st.start_resizing ResizeCorner.TopRight (some bounding_box)
        else if st.selected_lines ≠ ∅ ∧ bl_rect.contains pointer_pos = true then
          st.start_resizing ResizeCorner.BottomLeft (some bounding_box)
        else if st.selected_lines ≠ ∅ ∧ br_rect.contains pointer_pos = true then
          st.start_resizing ResizeCorner.BottomRight (some bounding_box)
        else if expanded_bbox.contains pointer_pos = true ∧ st.selected_lines ≠ ∅ then
          { st with is_moving_selection := true, last_mouse_pos := some pointer_pos }
        else
          { st with selected_lines := (∅ : Finset Nat),
                    selection_start := some pointer_pos,
                    selection_current := some pointer_pos }
     | none =>
        let zero_rect := Rect.from_center_size ⟨0, 0⟩ 10 10
        if st.selected_lines ≠ ∅ ∧ zero_rect.contains pointer_pos = true then
          st.start_resizing ResizeCorner.TopLeft none
        else
          { st with selected_lines := (∅ : Finset Nat),
                    selection_start := some pointer_pos,
                    selection_current := some pointer_pos })
  | PointerEvent.dragged =>
    (match st.resizing_corner with
     | some corner => st.update_resizing pointer_pos corner
     | none =>
        if st.is_moving_selection then
          match st.last_mouse_pos with
          | some last_pos =>
              let dx := pointer_pos.x - last_pos.x
              let dy := pointer_pos.y - last_pos.y
              { st with
                lines := st.lines.mapIdx fun i l =>
                  if i ∈ st.selected_lines then
                    { l with points := l.points.map fun p => ⟨p.x + dx, p.y + dy⟩ }
                  else l
                last_mouse_pos := some pointer_pos }
          | none => st
        else if st.selection_start.isSome then
          { st with selection_current := some pointer_pos }
        else st)
  | PointerEvent.dragStopped =>
    if st.resizing_corner.isSome then
      { st with resizing_corner := none, resize_original_bbox := none,
                resize_original_lines := [] }
    else if st.is_moving_selection then
      { st with is_moving_selection := false, last_mouse_pos := none }
    else
      match st.selection_start, st.selection_current with
      | some start, some current =>
          let rect := Rect.from_two_pos start current
          { st with
            selected_lines := st.lines.enum.foldl (fun s e =>
              if rect.intersectsOpt (line_bbox e.2) = true then insert e.1 s else s)
              (∅ : Finset Nat)
            selection_start := none
            selection_current := none }
      | _, _ => st
  | PointerEvent.clicked =>
    let outside :=
      match info with
      | some (_, expanded_bbox, _) => !(expanded_bbox.contains pointer_pos)
      | none => true
    if outside then { st with selected_lines := (∅ : Finset Nat) } else st

end WhiteboardApp

/-- Key presses handled by `WhiteboardApp::handle_keyboard_event`
(src/lib.rs), minus Ctrl+S / Ctrl+O whose effect is file I/O (modelled
separately by `open_whiteboard_file`).  `ctrlZ` is Z with the command
modifier; the letter keys are the unmodified shortcuts. -/
inductive KeyEvent where
  | ctrlZ
  | keyC
  | keyB
  | keyE
  | keyS
  | num1
  | num2
  | num3
  | num4
  | num5
  | num6
  | num7
  | num8
  | num9
  | deleteKey
  | escape
deriving DecidableEq, Repr

namespace WhiteboardApp

/-- The `Key::Delete` branch of `handle_keyboard_event` (src/lib.rs): when
the selection is non-empty, sort its indices descending, remove each valid
index from the canvas in that order, push all removed strokes as one erase
batch, and clear the selection. -/
def delete_selected (st : WhiteboardApp) : WhiteboardApp :=
  if st.selected_lines = ∅ then st
  else
    let indices := (st.selected_lines.sort (· ≤ ·)).reverse
    let p := indices.foldl (fun acc index =>
      match acc.1.get? index with
      | some line => (acc.1.eraseIdx index, acc.2 ++ [line])
      | none => acc) (st.lines, ([] : List Line))
    { st with
      lines := p.1
      undo_stack := st.undo_stack.extend_erase p.2
      selected_lines := (∅ : Finset Nat) }

/-- Rust `WhiteboardApp::handle_keyboard_event` (src/lib.rs), the per-key
state mutations.  Number keys call `set_active_color_index` with `key - 1`
unconditionally — there is no bounds check against the palette length. -/
def handle_keyboard_event (st : WhiteboardApp) (key : KeyEvent) : WhiteboardApp :=
  match key with
  | KeyEvent.ctrlZ => st.undo
  | KeyEvent.keyC => { st with lines := [], selected_lines := (∅ : Finset Nat) }
  | KeyEvent.keyB => { st with current_tool := Tool.Brush }
  | KeyEvent.keyE => { st with current_tool := Tool.Eraser }
  | KeyEvent.keyS =>
      if st.current_tool ≠ Tool.Selection then
        { st with
          selected_lines := (∅ : Finset Nat)
          selection_start := none
          selection_current := none
          is_moving_selection := false
          resizing_corner := none
          resize_original_bbox := none
          resize_original_lines := []
          current_tool := Tool.Selection }
      else st
  | KeyEvent.num1 => { st with palette := st.palette.set_active_color_index 0 }
  | KeyEvent.num2 => { st with palette := st.palette.set_active_color_index 1 }
  | KeyEvent.num3 => { st with palette := st.palette.set_active_color_index 2 }
  | KeyEvent.num4 => { st with palette := st.palette.set_active_color_index 3 }
  | KeyEvent.num5 => { st with palette := st.palette.set_active_color_index 4 }
  | KeyEvent.num6 => { st with palette := st.palette.set_active_color_index 5 }
  | KeyEvent.num7 => { st with palette := st.palette.set_active_color_index 6 }
  | KeyEvent.num8 => { st with palette := st.palette.set_active_color_index 7 }
  | KeyEvent.num9 => { st with palette := st.palette.set_active_color_index 8 }
  | KeyEvent.deleteKey => st.delete_selected
  | KeyEvent.escape =>
      { st with
        selected_lines := (∅ : Finset Nat)
        selection_start := none
        selection_current := none
        is_moving_selection := false
        resizing_corner := none
        resize_original_bbox := none
        resize_original_lines := [] }

end WhiteboardApp

/-!
Persistence codec (src/state.rs plus the save/open paths of src/lib.rs).

The document is `serde_json` text; it is modelled at the level of JSON
values.  Finite `f32`s round-trip exactly through `serde_json` (shortest
round-trip decimal on write, exact re-parse on read), so a number is carried
as the rational it denotes.
-/

/-- JSON values, the shape `serde_json` works with. -/
inductive Json where
  | null
  | bool (b : Bool)
  | num (q : ℚ)
  | str (s : String)
  | arr (elems : List Json)
  | obj (fields : List (String × Json))

/-- Rust `state.rs` `struct Color(pub [u8;4])`: the raw bytes of a color as
stored in the document, serialized by serde as an array of four numbers. -/
structure ColorBytes where
  r : Fin 256
  g : Fin 256
  b : Fin 256
  a : Fin 256
deriving DecidableEq, Repr

/-- Rust `impl From<Color32> for Color` (src/state.rs): takes the four raw
(premultiplied-storage) bytes of the `Color32` unchanged. -/
def ColorBytes.ofColor32 (c : Color32) : ColorBytes :=
  ⟨c.r, c.g, c.b, c.a⟩

/-- Rust `egui`'s `Color32::from_rgba_unmultiplied(r, g, b, a)`, used by
`impl From<Color> for Color32` (src/state.rs).  The egui source has three
branches: `a == 255` yields `from_rgb(r, g, b)` (the same bytes, opaque),
`a == 0` yields `Color32::TRANSPARENT` (all four bytes zero), and
`0 < a < 255` premultiplies each color channel by the alpha in f32 (through
the sRGB gamma curve).  egui is an external crate; the middle branch's
per-channel f32 computation is abstracted as the `premult` parameter — every
theorem below either quantifies over `premult` or only exercises the two
exact branches. -/
def from_rgba_unmultiplied (premult : Fin 256 → Fin 256 → Fin 256)
    (r g b a : Fin 256) : Color32 :=
  if a = 255 then ⟨r, g, b, 255⟩
  else if a = 0 then ⟨0, 0, 0, 0⟩
  else ⟨premult r a, premult g a, premult b a, a⟩

/-- Rust `impl From<Color> for Color32` (src/state.rs):
`Color32::from_rgba_unmultiplied(c[0], c[1], c[2], c[3])`. -/
def color32_of_bytes (premult : Fin 256 → Fin 256 → Fin 256)
    (c : ColorBytes) : Color32 :=
  from_rgba_unmultiplied premult c.r c.g c.b c.a

/-- Rust `state.rs` `struct LineState { points: Vec<Pos>, color: Color,
width: f32 }`. -/
structure LineState where
  points : List Pos2
  color : ColorBytes
  width : ℚ
deriving DecidableEq, Repr

/-- Rust `impl From<&Line> for LineState` (src/state.rs). -/
def LineState.ofLine (l : Line) : LineState :=
  ⟨l.points, ColorBytes.ofColor32 l.color, l.width⟩

/-- Rust `impl From<&LineState> for Line` (src/state.rs): converts each point
back and decodes the color with `from_rgba_unmultiplied`. -/
def LineState.toLine (premult : Fin 256 → Fin 256 → Fin 256)
    (s : LineState) : Line :=
  ⟨s.points, color32_of_bytes premult s.color, s.width⟩

/-- Rust `state.rs` `struct WhiteboardState { lines: Vec<LineState>,
palette: Vec<Color> }`. -/
structure WhiteboardState where
  lines : List LineState
  palette : List ColorBytes
deriving DecidableEq, Repr

/-- Rust `WhiteboardState::new` (src/state.rs): snapshot of the canvas and
palette for saving. -/
def WhiteboardState.new (app : WhiteboardApp) : WhiteboardState :=
  ⟨app.lines.map LineState.ofLine, app.palette.colors.map ColorBytes.ofColor32⟩

/-- serde serialization of one `u8`. -/
def encodeU8 (b : Fin 256) : Json := Json.num (b.val : ℚ)

/-- serde serialization of `Pos { x, y }`: an object with fields `x`, `y`. -/
def encodePos (p : Pos2) : Json := Json.obj [("x", Json.num p.x), ("y", Json.num p.y)]

/-- serde serialization of `Color([u8;4])` (a newtype over an array): an
array of four numbers. -/
def encodeColor (c : ColorBytes) : Json :=
  Json.arr [encodeU8 c.r, encodeU8 c.g, encodeU8 c.b, encodeU8 c.a]

/-- serde serialization of `LineState`. -/
def encodeLineState (l : LineState) : Json :=
  Json.obj [("points", Json.arr (l.points.map encodePos)),
            ("color", encodeColor l.color),
            ("width", Json.num l.width)]

/-- serde serialization of `WhiteboardState` — the document written by
`save_whiteboard` (`serde_json::to_string(&WhiteboardState::new(self))`). -/
def encodeWhiteboardState (w : WhiteboardState) : Json :=
  Json.obj [("lines", Json.arr (w.lines.map encodeLineState)),
            ("palette", Json.arr (w.palette.map encodeColor))]

/-- The document `save_whiteboard` (src/lib.rs) produces for the current
canvas and palette. -/
def serialize (app : WhiteboardApp) : Json :=
  encodeWhiteboardState (WhiteboardState.new app)

/-- Field lookup in a JSON object (serde matches struct fields by name,
in any order, ignoring unknown fields; `serde_json` additionally rejects
duplicate keys — taking the first occurrence is equivalent for every
document considered below, which either comes from the encoder or is
assumed to fail decoding). -/
def jsonField (fields : List (String × Json)) (name : String) : Option Json :=
  (fields.find? fun f => f.1 = name).map fun f => f.2

/-- serde deserialization of one `f32` from a JSON number. -/
def decodeF32 (j : Json) : Option ℚ :=
  match j with
  | Json.num q => some q
  | _ => none

/-- serde deserialization of one `u8`: an integral JSON number in
`[0, 255]`. -/
def decodeU8 (j : Json) : Option (Fin 256) :=
  match j with
  | Json.num q =>
      if h : q.den = 1 ∧ 0 ≤ q.num ∧ q.num < 256 then
        some ⟨q.num.toNat, by omega⟩
      else none
  | _ => none

/-- serde deserialization of `Pos`: an object providing numeric `x` and
`y`. -/
def decodePos (j : Json) : Option Pos2 :=
  match j with
  | Json.obj fields => do
      let x ← jsonField fields "x" >>= decodeF32
      let y ← jsonField fields "y" >>= decodeF32
      pure ⟨x, y⟩
  | _ => none

/-- serde deserialization of a `Vec`/array element-wise. -/
def decodeArray (dec : Json → Option α) (j : Json) : Option (List α) :=
  match j with
  | Json.arr elems => elems.mapM dec
  | _ => none

/-- serde deserialization of `Color([u8;4])`: an array of exactly four
bytes. -/
def decodeColor (j : Json) : Option ColorBytes :=
  match j with
  | Json.arr [jr, jg, jb, ja] => do
      let r ← decodeU8 jr
      let g ← decodeU8 jg
      let b ← decodeU8 jb
      let a ← decodeU8 ja
      pure ⟨r, g, b, a⟩
  | _ => none

/-- serde deserialization of `LineState`. -/
def decodeLineState (j : Json) : Option LineState :=
  match j with
  | Json.obj fields => do
      let points ← jsonField fields "points" >>= decodeArray decodePos
      let color ← jsonField fields "color" >>= decodeColor
      let width ← jsonField fields "width" >>= decodeF32
      pure ⟨points, color, width⟩
  | _ => none

/-- serde deserialization of `WhiteboardState` —
`serde_json::from_str::<WhiteboardState>` in `open_whiteboard_file`
(src/lib.rs); `none` models any structural parse error. -/
def decodeWhiteboardState (j : Json) : Option WhiteboardState :=
  match j with
  | Json.obj fields => do
      let lines ← jsonField fields "lines" >>= decodeArray decodeLineState
      let palette ← jsonField fields "palette" >>= decodeArray decodeColor
      pure ⟨lines, palette⟩
  | _ => none

namespace WhiteboardApp

/-- Rust `WhiteboardApp::open_whiteboard_file` (src/lib.rs) after a file was
picked and read successfully: parse the document; on success install the
file path, the decoded palette (`From<Vec<Color32>>` resets the active index
to 0) and the decoded strokes; on failure show the single generic
"… is not a whiteboard file" message and touch nothing.  The returned
`Option String` is the error dialog text, `none` when no dialog is shown. -/
def open_whiteboard_file (premult : Fin 256 → Fin 256 → Fin 256)
    (st : WhiteboardApp) (path : String) (doc : Json) :
    WhiteboardApp × Option String :=
  match decodeWhiteboardState doc with
  | some state =>
      ({ st with
          whiteboard_file := some path
          palette := ColorPalette.from_colors
            (state.palette.map (color32_of_bytes premult))
          lines := state.lines.map (LineState.toLine premult) }, none)
  | none => (st, some (path ++ " is not a whiteboard file"))

end WhiteboardApp

/-!
Specification-side definitions.  These follow the wording of the spec (not
the code) and are compared with the embedded code in the theorems below.
-/

/-- Spec wording for the eraser test: "the closest point on the segment, the
projection parameter clamped to `[0,1]`, zero-length segments reducing to
point distance". -/
def closest_point_on_segment (p a b : Pos2) : Pos2 :=
  if a = b then a
  else
    let l2 := distance_sq a b
    let t := ((p.x - a.x) * (b.x - a.x) + (p.y - a.y) * (b.y - a.y)) / l2
    let t := Min.min (Max.max t 0) 1
    ⟨a.x + t * (b.x - a.x), a.y + t * (b.y - a.y)⟩

/-- Spec wording: the pointer is within `r` of the segment `a`–`b` (distances
compared in squared form, which over exact arithmetic agrees with comparing
Euclidean distances for a nonnegative radius). -/
def segment_within (p a b : Pos2) (r : ℚ) : Prop :=
  distance_sq p (closest_point_on_segment p a b) < r ^ 2

/-!
Claims.  Each claim of the specification gets one theorem (plus, where
needed, a counterexample theorem and a witness instance).
-/

/-- C2: the undo history is NOT bounded by 100 entries under every push: a
batch erase pushed with `extend_erase` runs the eviction check only once, so
pushing a batch of 2 onto a full history of 100 entries leaves 101 entries,
above `MAX_UNDO_STACK_SIZE`. -/
theorem extend_erase_exceeds_bound :
    ((UndoStack.mk (List.replicate 100 (UndoAction.Draw ⟨[], ⟨0, 0, 0, 255⟩, 1⟩))).extend_erase
        [⟨[], ⟨0, 0, 0, 255⟩, 1⟩, ⟨[], ⟨0, 0, 0, 255⟩, 1⟩]).stack.length = 101 ∧
      MAX_UNDO_STACK_SIZE < 101 := by
  constructor
  · decide
  · decide

/-- C10: pressing the 6 key in the default state (palette of 5 colors) sets
the active color index to 5 with no bounds check; `get_current_color` then
indexes out of bounds (a Rust panic, modelled as `none`). -/
theorem num6_breaks_palette_index :
    (WhiteboardApp.default.handle_keyboard_event KeyEvent.num6).palette.colors.length = 5 ∧
    (WhiteboardApp.default.handle_keyboard_event KeyEvent.num6).palette.active_color_index = 5 ∧
    (WhiteboardApp.default.handle_keyboard_event KeyEvent.num6).palette.get_current_color? = none := by
  refine ⟨by decide, by decide, by decide⟩

/-- C3 counterexample: committing an in-progress line with exactly 1 point
DOES add a stroke to the canvas and a `Draw` undo entry — the Rust guard is
only `!self.current_line.is_empty()`, not a 2-point check. -/
theorem commit_single_point_adds_stroke :
    (WhiteboardApp.commit_current_line
        { WhiteboardApp.default with current_line := [⟨0, 0⟩] }).map
      (fun s => (s.lines.length, s.undo_stack.stack.length, s.current_line)) =
      some (1, 1, []) := by decide

/-- C3 (amended): committing with an empty in-progress buffer does nothing;
committing with 1 or more points appends exactly one stroke, pushes exactly
one `Draw` undo entry, and clears the buffer; and only strokes with at least
2 points are ever rendered. -/
theorem commit_current_line_spec (st : WhiteboardApp)
    (hpal : st.palette.active_color_index < st.palette.colors.length) :
    (st.current_line = [] → st.commit_current_line = some st) ∧
    (st.current_line ≠ [] → ∃ color, st.palette.get_current_color? = some color ∧
      st.commit_current_line = some
        { st with
          lines := st.lines ++ [⟨st.current_line, color, st.stroke_width⟩]
          undo_stack := st.undo_stack.add_draw ⟨st.current_line, color, st.stroke_width⟩
          current_line := [] }) ∧
    (∀ l ∈ WhiteboardApp.rendered_lines st, 2 ≤ l.points.length) := by
  refine ⟨?_, ?_, ?_⟩
  · intro h
    simp [WhiteboardApp.commit_current_line, h]
  · intro h
    have hc : st.palette.get_current_color? = some (st.palette.colors.get ⟨st.palette.active_color_index, hpal⟩) := by
      simp [ColorPalette.get_current_color?, List.get?_eq_get hpal]
    refine ⟨_, hc, ?_⟩
    simp [WhiteboardApp.commit_current_line, WhiteboardApp.push_line, h, hc,
      List.isEmpty_iff]
  · intro l hl
    simp [WhiteboardApp.rendered_lines, List.mem_filter] at hl
    exact hl.2

/-- C3 witness: a concrete 2-point commit appends exactly one stroke. -/
theorem commit_current_line_spec_witness :
    ((WhiteboardApp.commit_current_line
        { WhiteboardApp.default with current_line := [⟨0, 0⟩, ⟨3, 4⟩] }).map
      fun s => s.lines.length) = some 1 := by
  obtain ⟨color, hc, heq⟩ :=
    (commit_current_line_spec
      { WhiteboardApp.default with current_line := [⟨0, 0⟩, ⟨3, 4⟩] } (by decide)).2.1
      (by decide)
  rw [heq]
  rfl

/-- C7 (amended): undo on an empty history leaves canvas, palette, file path
and undo history unchanged and reports nothing, but it does clear the
selection (the Rust `undo` clears `selected_lines` before popping). -/
theorem undo_empty_history (st : WhiteboardApp) (h : st.undo_stack.stack = []) :
    st.undo = { st with selected_lines := (∅ : Finset Nat) } := by
  simp [WhiteboardApp.undo, UndoStack.pop, h]

/-- C7 witness: concrete empty-history undo. -/
theorem undo_empty_history_witness :
    ({ WhiteboardApp.default with selected_lines := {1, 2} } : WhiteboardApp).undo =
      { WhiteboardApp.default with selected_lines := (∅ : Finset Nat) } := by
  have h := undo_empty_history { WhiteboardApp.default with selected_lines := {1, 2} } rfl
  simpa using h

/-- C7 counterexample: with an empty undo history and a non-empty selection,
`undo` is NOT a complete no-op — it clears the selection (canvas, undo
history and palette are indeed untouched). -/
theorem undo_empty_clears_selection :
    (({ WhiteboardApp.default with selected_lines := {3} } : WhiteboardApp).undo).selected_lines ≠
      ({ WhiteboardApp.default with selected_lines := {3} } : WhiteboardApp).selected_lines ∧
    (({ WhiteboardApp.default with selected_lines := {3} } : WhiteboardApp).undo).lines =
      ({ WhiteboardApp.default with selected_lines := {3} } : WhiteboardApp).lines ∧
    (({ WhiteboardApp.default with selected_lines := {3} } : WhiteboardApp).undo).undo_stack =
      ({ WhiteboardApp.default with selected_lines := {3} } : WhiteboardApp).undo_stack ∧
    (({ WhiteboardApp.default with selected_lines := {3} } : WhiteboardApp).undo).palette =
      ({ WhiteboardApp.default with selected_lines := {3} } : WhiteboardApp).palette := by
  refine ⟨by decide, by decide, by decide, by decide⟩

/-- C6: opening a document that fails the structural parse yields exactly
the generic "is not a whiteboard file" error and returns the application
state unchanged in every field — no partial state is installed. -/
theorem open_invalid_leaves_state_unchanged
    (premult : Fin 256 → Fin 256 → Fin 256) (st : WhiteboardApp)
    (path : String) (doc : Json) (h : decodeWhiteboardState doc = none) :
    st.open_whiteboard_file premult path doc =
      (st, some (path ++ " is not a whiteboard file")) := by
  simp [WhiteboardApp.open_whiteboard_file, h]

/-- C6 witness: a concrete malformed document. -/
theorem open_invalid_leaves_state_unchanged_witness :
    WhiteboardApp.default.open_whiteboard_file (fun r _ => r) "bad.wb" Json.null =
      (WhiteboardApp.default, some "bad.wb is not a whiteboard file") := by
  have h := open_invalid_leaves_state_unchanged (fun r _ => r)
    WhiteboardApp.default "bad.wb" Json.null rfl
  simpa using h

/-- Helper: `undo` when the most recent entry is a `Draw`. -/
lemma undo_stack_concat_draw (st : WhiteboardApp) (line : Line)
    (rest : List UndoAction)
    (h : st.undo_stack.stack = rest ++ [UndoAction.Draw line]) :
    st.undo = { st with
      selected_lines := (∅ : Finset Nat)
      undo_stack := ⟨rest⟩
      lines := st.lines.dropLast } := by
  simp [WhiteboardApp.undo, UndoStack.pop, h, List.getLast?_concat, List.dropLast_concat]

/-- Helper: `undo` when the most recent entry is an `Erase`. -/
lemma undo_stack_concat_erase (st : WhiteboardApp) (line : Line)
    (rest : List UndoAction)
    (h : st.undo_stack.stack = rest ++ [UndoAction.Erase line]) :
    st.undo = { st with
      selected_lines := (∅ : Finset Nat)
      undo_stack := ⟨rest⟩
      lines := st.lines ++ [line] } := by
  simp [WhiteboardApp.undo, UndoStack.pop, h, List.getLast?_concat, List.dropLast_concat]

/-- Helper: undoing an erase batch of `N` strokes by `N` consecutive undo
calls appends all `N` strokes at the end of the canvas (in reverse push
order) and leaves the remaining history intact. -/
lemma undo_iterate_erase_batch (batch : List Line) :
    ∀ (st : WhiteboardApp) (rest : List UndoAction),
      st.undo_stack.stack = rest ++ batch.map UndoAction.Erase →
      (WhiteboardApp.undo^[batch.length] st).lines = st.lines ++ batch.reverse ∧
      (WhiteboardApp.undo^[batch.length] st).undo_stack.stack = rest := by
  induction batch using List.reverseRecOn with
  | nil => intro st rest h; simpa using h
  | append_singleton bs b ih =>
      intro st rest h
      have hsplit : st.undo_stack.stack =
          (rest ++ bs.map UndoAction.Erase) ++ [UndoAction.Erase b] := by
        simpa [List.map_append, List.append_assoc] using h
      have hstep := undo_stack_concat_erase st b _ hsplit
      have hlen : (bs ++ [b]).length = bs.length + 1 := by simp
      rw [hlen, Function.iterate_succ_apply]
      have hih := ih st.undo rest (by rw [hstep])
      rcases hih with ⟨h1, h2⟩
      refine ⟨?_, h2⟩
      rw [h1, hstep]
      simp

/-- C5: popping a `Draw` entry removes exactly the last stroke in canvas
order; popping an `Erase` entry re-appends the stored stroke at the end of
the canvas; undoing an erase batch of `N` strokes by `N` consecutive undo
calls restores all `N` strokes at the end of the list. -/
theorem undo_semantics :
    (∀ (st : WhiteboardApp) (line : Line) (rest : List UndoAction),
        st.undo_stack.stack = rest ++ [UndoAction.Draw line] →
        st.undo.lines = st.lines.dropLast ∧ st.undo.undo_stack.stack = rest) ∧
    (∀ (st : WhiteboardApp) (line : Line) (rest : List UndoAction),
        st.undo_stack.stack = rest ++ [UndoAction.Erase line] →
        st.undo.lines = st.lines ++ [line] ∧ st.undo.undo_stack.stack = rest) ∧
    (∀ (st : WhiteboardApp) (batch : List Line) (rest : List UndoAction),
        st.undo_stack.stack = rest ++ batch.map UndoAction.Erase →
        (WhiteboardApp.undo^[batch.length] st).lines = st.lines ++ batch.reverse ∧
        (WhiteboardApp.undo^[batch.length] st).undo_stack.stack = rest) := by
  refine ⟨?_, ?_, ?_⟩
  · intro st line rest h
    rw [undo_stack_concat_draw st line rest h]
    exact ⟨rfl, rfl⟩
  · intro st line rest h
    rw [undo_stack_concat_erase st line rest h]
    exact ⟨rfl, rfl⟩
  · intro st batch rest h
    exact undo_iterate_erase_batch batch st rest h

/-- Concrete stroke for the C5 witness. -/
def c5_line (n : ℚ) : Line := ⟨[⟨n, 0⟩, ⟨n, 1⟩], ⟨255, 255, 255, 255⟩, 3⟩

/-- Concrete state for the C5 witness: one stroke on the canvas, a history
of one draw followed by an erase batch of two strokes. -/
def c5_state : WhiteboardApp :=
  { WhiteboardApp.default with
    lines := [c5_line 0]
    undo_stack := ⟨[UndoAction.Draw (c5_line 0), UndoAction.Erase (c5_line 1),
                    UndoAction.Erase (c5_line 2)]⟩ }

/-- C5 witness: two undo calls after an erase batch of two strokes restore
both strokes at the end of the canvas. -/
theorem undo_semantics_witness :
    (WhiteboardApp.undo^[2] c5_state).lines = [c5_line 0, c5_line 2, c5_line 1] ∧
    (WhiteboardApp.undo^[2] c5_state).undo_stack.stack = [UndoAction.Draw (c5_line 0)] := by
  have h := undo_semantics.2.2 c5_state [c5_line 1, c5_line 2]
    [UndoAction.Draw (c5_line 0)] rfl
  simpa [c5_state] using h

/-- Helper: a byte survives JSON encoding. -/
lemma decodeU8_encodeU8 (b : Fin 256) : decodeU8 (encodeU8 b) = some b := by
  have hden : ((b.val : ℚ)).den = 1 := Rat.den_natCast _
  have hnum : ((b.val : ℚ)).num = (b.val : ℤ) := Rat.num_natCast _
  have hlt : (b.val : ℤ) < 256 := by exact_mod_cast b.isLt
  simp only [decodeU8, encodeU8]
  rw [dif_pos ⟨hden, by simp [hnum], by simp [hnum, hlt]⟩]
  congr 1

/-- Helper: a point survives JSON encoding. -/
lemma decodePos_encodePos (p : Pos2) : decodePos (encodePos p) = some p := rfl

/-- Helper: a 4-byte color survives JSON encoding. -/
lemma decodeColor_encodeColor (c : ColorBytes) :
    decodeColor (encodeColor c) = some c := by
  simp [decodeColor, encodeColor, decodeU8_encodeU8]

/-- Helper: element-wise decoding inverts element-wise encoding. -/
lemma decodeArray_map_encode {α : Type} (dec : Json → Option α) (enc : α → Json)
    (xs : List α) (h : ∀ x ∈ xs, dec (enc x) = some x) :
    decodeArray dec (Json.arr (xs.map enc)) = some xs := by
  simp only [decodeArray]
  induction xs with
  | nil => rfl
  | cons x rest ih =>
      simp only [List.map_cons, List.mapM_cons]
      rw [h x (by simp)]
      rw [ih (fun y hy => h y (by simp [hy]))]
      rfl

/-- Helper: a `LineState` survives JSON encoding. -/
lemma decodeLineState_encodeLineState (l : LineState) :
    decodeLineState (encodeLineState l) = some l := by
  simp only [decodeLineState, encodeLineState]
  rw [show jsonField [("points", Json.arr (l.points.map encodePos)),
        ("color", encodeColor l.color), ("width", Json.num l.width)] "points" =
      some (Json.arr (l.points.map encodePos)) from rfl]
  rw [show jsonField [("points", Json.arr (l.points.map encodePos)),
        ("color", encodeColor l.color), ("width", Json.num l.width)] "color" =
      some (encodeColor l.color) from rfl]
  rw [show jsonField [("points", Json.arr (l.points.map encodePos)),
        ("color", encodeColor l.color), ("width", Json.num l.width)] "width" =
      some (Json.num l.width) from rfl]
  simp [decodeArray_map_encode decodePos encodePos l.points
    (fun x _ => decodePos_encodePos x), decodeColor_encodeColor, decodeF32]

/-- Helper: the whole document survives JSON encoding — the structural parse
of a saved document always succeeds and returns the saved snapshot. -/
lemma decodeWhiteboardState_encodeWhiteboardState (w : WhiteboardState) :
    decodeWhiteboardState (encodeWhiteboardState w) = some w := by
  simp only [decodeWhiteboardState, encodeWhiteboardState]
  rw [show jsonField [("lines", Json.arr (w.lines.map encodeLineState)),
        ("palette", Json.arr (w.palette.map encodeColor))] "lines" =
      some (Json.arr (w.lines.map encodeLineState)) from rfl]
  rw [show jsonField [("lines", Json.arr (w.lines.map encodeLineState)),
        ("palette", Json.arr (w.palette.map encodeColor))] "palette" =
      some (Json.arr (w.palette.map encodeColor)) from rfl]
  simp [decodeArray_map_encode decodeLineState encodeLineState w.lines
    (fun x _ => decodeLineState_encodeLineState x),
    decodeArray_map_encode decodeColor encodeColor w.palette
    (fun x _ => decodeColor_encodeColor x)]

/-- Helper: `from_rgba_unmultiplied` on the raw bytes of an opaque color is
the identity (the `a == 255` branch copies the bytes). -/
lemma color32_roundtrip_alpha255 (premult : Fin 256 → Fin 256 → Fin 256)
    (c : Color32) (h : c.a = 255) :
    color32_of_bytes premult (ColorBytes.ofColor32 c) = c := by
  cases c
  simp only at h
  subst h
  simp [color32_of_bytes, ColorBytes.ofColor32, from_rgba_unmultiplied]

/-- Helper: a stroke with an opaque color survives the save/load
conversion. -/
lemma toLine_ofLine_alpha255 (premult : Fin 256 → Fin 256 → Fin 256)
    (l : Line) (h : l.color.a = 255) :
    (LineState.ofLine l).toLine premult = l := by
  cases l
  simp only [LineState.ofLine, LineState.toLine]
  simp_all [color32_roundtrip_alpha255]

/-- C1 (amended): opening the document produced by saving succeeds with no
error and restores every stroke (all point coordinates and widths exactly)
and every palette color, provided every color is opaque (`alpha = 255`).
For non-opaque colors the load path re-premultiplies the already
premultiplied stored bytes (`Color32::from_rgba_unmultiplied`), so byte
equality fails — see the counterexample. -/
theorem serialize_roundtrip_alpha255 (premult : Fin 256 → Fin 256 → Fin 256)
    (app : WhiteboardApp) (path : String)
    (hl : ∀ l ∈ app.lines, l.color.a = 255)
    (hp : ∀ c ∈ app.palette.colors, c.a = 255) :
    (app.open_whiteboard_file premult path (serialize app)).2 = none ∧
    (app.open_whiteboard_file premult path (serialize app)).1.lines = app.lines ∧
    (app.open_whiteboard_file premult path (serialize app)).1.palette.colors =
      app.palette.colors := by
  have hdec : decodeWhiteboardState (serialize app) = some (WhiteboardState.new app) :=
    decodeWhiteboardState_encodeWhiteboardState _
  simp only [WhiteboardApp.open_whiteboard_file, hdec]
  refine ⟨trivial, ?_, ?_⟩
  · simp only [WhiteboardState.new, List.map_map]
    rw [List.map_congr_left (fun l hmem => ?_), List.map_id]
    exact toLine_ofLine_alpha255 premult l (hl l hmem)
  · simp only [WhiteboardState.new, ColorPalette.from_colors, List.map_map]
    rw [List.map_congr_left (fun c hmem => ?_), List.map_id]
    exact color32_roundtrip_alpha255 premult c (hp c hmem)

/-- C1 witness: the default state (five opaque palette colors, no strokes)
round-trips exactly. -/
theorem serialize_roundtrip_alpha255_witness :
    (WhiteboardApp.default.open_whiteboard_file (fun r _ => r) "w.wb"
      (serialize WhiteboardApp.default)).2 = none ∧
    (WhiteboardApp.default.open_whiteboard_file (fun r _ => r) "w.wb"
      (serialize WhiteboardApp.default)).1.lines = WhiteboardApp.default.lines ∧
    (WhiteboardApp.default.open_whiteboard_file (fun r _ => r) "w.wb"
      (serialize WhiteboardApp.default)).1.palette.colors =
      WhiteboardApp.default.palette.colors :=
  serialize_roundtrip_alpha255 (fun r _ => r) WhiteboardApp.default "w.wb"
    (by decide) (by decide)

/-- C1 counterexample: a palette color with `alpha = 0` and non-zero red
byte does not survive the round trip — `from_rgba_unmultiplied` maps any
`(r, g, b, 0)` to `TRANSPARENT = (0, 0, 0, 0)` (this branch of the egui
conversion is exact, independent of the abstracted `premult`). -/
theorem serialize_roundtrip_counterexample :
    (WhiteboardApp.open_whiteboard_file (fun r _ => r)
        { WhiteboardApp.default with palette := ⟨[⟨255, 0, 0, 0⟩], 0⟩ } "a.wb"
        (serialize { WhiteboardApp.default with palette := ⟨[⟨255, 0, 0, 0⟩], 0⟩ })).1.palette.colors ≠
      ({ WhiteboardApp.default with palette := ⟨[⟨255, 0, 0, 0⟩], 0⟩ } : WhiteboardApp).palette.colors := by
  decide

/-- Helper: a squared distance vanishes exactly between equal points. -/
lemma distance_sq_eq_zero_iff (a b : Pos2) : distance_sq a b = 0 ↔ a = b := by
  constructor
  · intro h
    have hx := sq_nonneg (a.x - b.x)
    have hy := sq_nonneg (a.y - b.y)
    have hx0 : (a.x - b.x) ^ 2 = 0 := by
      simp only [distance_sq] at h
      nlinarith
    have hy0 : (a.y - b.y) ^ 2 = 0 := by
      simp only [distance_sq] at h
      nlinarith
    have h1 : a.x = b.x := by
      have := (pow_eq_zero_iff (two_ne_zero)).mp hx0
      linarith [sub_eq_zero.mp this]
    have h2 : a.y = b.y := by
      have := (pow_eq_zero_iff (two_ne_zero)).mp hy0
      linarith [sub_eq_zero.mp this]
    cases a; cases b; simp_all
  · intro h
    subst h
    simp [distance_sq]

/-- Helper: the code's distance computation equals the spec's
closest-point-on-segment formulation. -/
lemma distance_sq_point_to_segment_eq_closest (p a b : Pos2) :
    distance_sq_point_to_segment p a b =
      distance_sq p (closest_point_on_segment p a b) := by
  by_cases h : a = b
  · subst h
    simp [distance_sq_point_to_segment, closest_point_on_segment,
      distance_sq_eq_zero_iff]
  · have hne : distance_sq a b ≠ 0 := fun hz => h ((distance_sq_eq_zero_iff a b).mp hz)
    simp [distance_sq_point_to_segment, closest_point_on_segment, h, hne]

/-- Helper: membership in the consecutive-pairs list (`windows(2)`). -/
lemma mem_zip_tail {l : List Pos2} {w : Pos2 × Pos2} :
    w ∈ l.zip l.tail ↔ ∃ j, ∃ h : j + 1 < l.length,
      l.get ⟨j, by omega⟩ = w.1 ∧ l.get ⟨j + 1, h⟩ = w.2 := by
  constructor
  · intro hw
    obtain ⟨i, hi, hEq⟩ := List.mem_iff_getElem.mp hw
    have hlen : i + 1 < l.length := by
      rw [List.length_zip, List.length_tail] at hi
      omega
    refine ⟨i, hlen, ?_, ?_⟩
    · rw [← hEq]
      simp [List.getElem_zip, List.get_eq_getElem]
    · rw [← hEq]
      simp [List.getElem_zip, List.get_eq_getElem, List.getElem_tail]
  · rintro ⟨j, h, h1, h2⟩
    have hz : j < (l.zip l.tail).length := by
      rw [List.length_zip, List.length_tail]
      omega
    have ht : j < l.tail.length := by
      rw [List.length_tail]
      omega
    have hl : j < l.length := by omega
    rw [List.mem_iff_getElem]
    refine ⟨j, hz, ?_⟩
    rw [List.getElem_zip]
    have hj : l.get ⟨j, hl⟩ = w.1 := h1
    have hj2 : l.tail.get ⟨j, ht⟩ = w.2 := by
      rw [← h2]
      simp [List.get_eq_getElem, List.getElem_tail]
    simp only [List.get_eq_getElem] at hj hj2
    rw [hj, hj2]

/-- Helper: the eraser's per-stroke loop finds a hit exactly when some
consecutive segment is within the radius in the spec's sense. -/
lemma line_hit_iff_segment_within (pointer_pos : Pos2) (r : ℚ) (line : Line) :
    line_hit pointer_pos r line = true ↔
      ∃ j, ∃ h : j + 1 < line.points.length,
        segment_within pointer_pos (line.points.get ⟨j, by omega⟩)
          (line.points.get ⟨j + 1, h⟩) r := by
  simp only [line_hit, List.any_eq_true]
  constructor
  · rintro ⟨w, hw, hlt⟩
    obtain ⟨j, h, h1, h2⟩ := mem_zip_tail.mp hw
    refine ⟨j, h, ?_⟩
    rw [segment_within, ← distance_sq_point_to_segment_eq_closest, h1, h2]
    exact of_decide_eq_true hlt
  · rintro ⟨j, h, hseg⟩
    refine ⟨(line.points.get ⟨j, by omega⟩, line.points.get ⟨j + 1, h⟩),
      mem_zip_tail.mpr ⟨j, h, rfl, rfl⟩, ?_⟩
    rw [decide_eq_true_eq, distance_sq_point_to_segment_eq_closest]
    exact hseg

/-- C4: the eraser removes exactly the strokes having a consecutive-point
segment within `stroke_width + 5` of the pointer (closest point on the
segment, projection clamped to `[0, 1]`, zero-length segments reducing to
point distance), keeps every stroke all of whose segments are farther, and
pushes the removed strokes to the undo history as one erase batch (clearing
the selection); when nothing qualifies the state is unchanged. -/
theorem handle_eraser_spec (st : WhiteboardApp) (pointer_pos : Pos2)
    (_hw : 0 ≤ st.stroke_width) :
    (∀ line : Line, line_hit pointer_pos (st.stroke_width + 5) line = true ↔
      ∃ j, ∃ h : j + 1 < line.points.length,
        segment_within pointer_pos (line.points.get ⟨j, by omega⟩)
          (line.points.get ⟨j + 1, h⟩) (st.stroke_width + 5)) ∧
    (st.handle_eraser pointer_pos).lines =
      st.lines.filter (fun l => !(line_hit pointer_pos (st.stroke_width + 5) l)) ∧
    (st.lines.filter (fun l => line_hit pointer_pos (st.stroke_width + 5) l) = [] →
      st.handle_eraser pointer_pos = st) ∧
    (st.lines.filter (fun l => line_hit pointer_pos (st.stroke_width + 5) l) ≠ [] →
      st.handle_eraser pointer_pos =
        { st with
          lines := st.lines.filter (fun l => !(line_hit pointer_pos (st.stroke_width + 5) l))
          selected_lines := (∅ : Finset Nat)
          undo_stack := st.undo_stack.extend_erase
            (st.lines.filter (fun l => line_hit pointer_pos (st.stroke_width + 5) l)) }) := by
  have hpart : st.lines.partition (fun l => !(line_hit pointer_pos (st.stroke_width + 5) l)) =
      (st.lines.filter (fun l => !(line_hit pointer_pos (st.stroke_width + 5) l)),
       st.lines.filter (fun l => line_hit pointer_pos (st.stroke_width + 5) l)) := by
    rw [List.partition_eq_filter_filter]
    congr 1
    apply List.filter_congr
    intro a ha
    simp
  refine ⟨fun line => line_hit_iff_segment_within pointer_pos _ line, ?_, ?_, ?_⟩
  · simp only [WhiteboardApp.handle_eraser, hpart]
    by_cases hdel : st.lines.filter (fun l => line_hit pointer_pos (st.stroke_width + 5) l) = []
    · simp [hdel]
    · simp [hdel, List.isEmpty_iff]
  · intro hdel
    have hkeep : st.lines.filter (fun l => !(line_hit pointer_pos (st.stroke_width + 5) l)) = st.lines := by
      rw [List.filter_eq_self]
      intro a ha
      rw [List.filter_eq_nil_iff] at hdel
      simp [hdel a ha]
    simp only [WhiteboardApp.handle_eraser, hpart]
    simp [hdel, hkeep]
  · intro hdel
    simp only [WhiteboardApp.handle_eraser, hpart]
    simp [hdel, List.isEmpty_iff]




/-- Concrete stroke for the C4 witness (the spec's own example). -/
def c4_line : Line := ⟨[⟨0, 0⟩, ⟨10, 0⟩], ⟨255, 255, 255, 255⟩, 3⟩

/-- Concrete state for the C4 witness. -/
def c4_state : WhiteboardApp :=
  { WhiteboardApp.default with lines := [c4_line] }

/-- Helper: the witness stroke is within the eraser radius. -/
lemma c4_hit : line_hit ⟨5, 1⟩ (c4_state.stroke_width + 5) c4_line = true := by
  simp only [line_hit, c4_line, c4_state, WhiteboardApp.default, List.zip_cons_cons,
    List.tail_cons, List.zip_nil_right, List.any_cons, List.any_nil,
    Bool.or_false, decide_eq_true_eq, distance_sq_point_to_segment, distance_sq]
  norm_num

/-- Helper: the witness canvas filtered to hit strokes. -/
lemma c4_filter_pos : c4_state.lines.filter
    (fun l => line_hit ⟨5, 1⟩ (c4_state.stroke_width + 5) l) = [c4_line] := by
  show List.filter (fun l => line_hit ⟨5, 1⟩ (c4_state.stroke_width + 5) l) [c4_line] = [c4_line]
  rw [List.filter_cons, c4_hit]
  simp

/-- Helper: the witness canvas filtered to surviving strokes. -/
lemma c4_filter_neg : c4_state.lines.filter
    (fun l => !line_hit ⟨5, 1⟩ (c4_state.stroke_width + 5) l) = [] := by
  show List.filter (fun l => !line_hit ⟨5, 1⟩ (c4_state.stroke_width + 5) l) [c4_line] = []
  rw [List.filter_cons, c4_hit]
  simp

/-- C4 witness: the spec's example — a stroke from (0,0) to (10,0) with the
default width 3 is erased by a pointer near it, and recorded as an erase
batch. -/
theorem handle_eraser_spec_witness :
    (c4_state.handle_eraser ⟨5, 1⟩).lines = [] ∧
    (c4_state.handle_eraser ⟨5, 1⟩).undo_stack.stack = [UndoAction.Erase c4_line] := by
  have h := handle_eraser_spec c4_state ⟨5, 1⟩
    (by norm_num [c4_state, WhiteboardApp.default])
  have h4 := h.2.2.2 (by rw [c4_filter_pos]; simp)
  rw [h4]
  refine ⟨?_, ?_⟩
  · show List.filter (fun l => !line_hit ⟨5, 1⟩ (c4_state.stroke_width + 5) l) c4_state.lines = []
    exact c4_filter_neg
  · show (c4_state.undo_stack.extend_erase
      (c4_state.lines.filter (fun l => line_hit ⟨5, 1⟩ (c4_state.stroke_width + 5) l))).stack =
      [UndoAction.Erase c4_line]
    rw [c4_filter_pos]
    simp [c4_state, WhiteboardApp.default, UndoStack.default, UndoStack.extend_erase,
      MAX_UNDO_STACK_SIZE]

/-- Helper: membership after the marquee insertion loop. -/
lemma mem_marquee_foldl (rect : Rect) (xs : List (Nat × Line)) (s : Finset Nat) (k : Nat) :
    k ∈ xs.foldl (fun s e =>
        if rect.intersectsOpt (line_bbox e.2) = true then insert e.1 s else s) s ↔
      k ∈ s ∨ ∃ e ∈ xs, e.1 = k ∧ rect.intersectsOpt (line_bbox e.2) = true := by
  induction xs generalizing s with
  | nil => simp
  | cons e rest ih =>
      simp only [List.foldl_cons]
      by_cases h : rect.intersectsOpt (line_bbox e.2) = true
      · rw [if_pos h, ih]
        simp only [Finset.mem_insert, List.mem_cons]
        constructor
        · rintro (⟨h1 | h1⟩ | h1)
          · exact Or.inr ⟨e, Or.inl rfl, h1.symm, h⟩
          · exact Or.inl h1
          · rcases h1 with ⟨f, hf, hk, hint⟩
            exact Or.inr ⟨f, Or.inr hf, hk, hint⟩
        · rintro (h1 | ⟨f, hf | hf, hk, hint⟩)
          · exact Or.inl (Or.inr h1)
          · subst hf
            exact Or.inl (Or.inl hk.symm)
          · exact Or.inr ⟨f, hf, hk, hint⟩
      · rw [if_neg h, ih]
        simp only [List.mem_cons]
        constructor
        · rintro (h1 | ⟨f, hf, hk, hint⟩)
          · exact Or.inl h1
          · exact Or.inr ⟨f, Or.inr hf, hk, hint⟩
        · rintro (h1 | ⟨f, hf | hf, hk, hint⟩)
          · exact Or.inl h1
          · subst hf
            exact absurd hint h
          · exact Or.inr ⟨f, hf, hk, hint⟩

/-- C8: on marquee drag-stop the new selection is exactly the set of indices
of strokes whose point-bounding-box intersects the rectangle spanned by the
two drag anchors (partial overlap included), and both anchors are cleared;
the previous selection is discarded (the result does not depend on it). -/
theorem marquee_selection_spec (st : WhiteboardApp)
    (pointer_pos start current : Pos2)
    (hrc : st.resizing_corner = none)
    (hmv : st.is_moving_selection = false)
    (hs : st.selection_start = some start)
    (hc : st.selection_current = some current) :
    (st.handle_selection PointerEvent.dragStopped pointer_pos).selected_lines =
      (Finset.range st.lines.length).filter (fun i =>
        (Rect.from_two_pos start current).intersectsOpt
          ((st.lines.get? i).bind line_bbox) = true) ∧
    (st.handle_selection PointerEvent.dragStopped pointer_pos).selection_start = none ∧
    (st.handle_selection PointerEvent.dragStopped pointer_pos).selection_current = none := by
  simp only [WhiteboardApp.handle_selection, hrc, hmv, hs, hc, Option.isSome_none,
    Bool.false_eq_true, if_false, Bool.not_eq_true]
  refine ⟨?_, trivial, trivial⟩
  ext k
  rw [mem_marquee_foldl]
  simp only [Finset.not_mem_empty, false_or, Finset.mem_filter, Finset.mem_range]
  constructor
  · rintro ⟨e, he, hk, hint⟩
    obtain ⟨i, a⟩ := e
    rw [List.mk_mem_enum_iff_getElem?] at he
    simp only at hk hint
    subst hk
    have hlt : i < st.lines.length := by
      have := List.getElem?_eq_some_iff.mp he
      exact this.1
    refine ⟨hlt, ?_⟩
    rw [List.get?_eq_getElem?, he]
    exact hint
  · rintro ⟨hlt, hint⟩
    have hget : st.lines[k]? = some (st.lines.get ⟨k, hlt⟩) := by
      rw [← List.get?_eq_getElem?]
      exact List.get?_eq_get hlt
    refine ⟨(k, st.lines.get ⟨k, hlt⟩), ?_, rfl, ?_⟩
    · rw [List.mk_mem_enum_iff_getElem?]
      exact hget
    · rw [List.get?_eq_getElem?, hget] at hint
      exact hint

/-- Concrete state for the C8 witness: one stroke partially overlapping the
marquee (0,0)-(100,100), one stroke outside it, and a stale previous
selection. -/
def c8_state : WhiteboardApp :=
  { WhiteboardApp.default with
    lines := [⟨[⟨50, 50⟩, ⟨150, 150⟩], ⟨255, 255, 255, 255⟩, 3⟩,
              ⟨[⟨300, 300⟩], ⟨255, 255, 255, 255⟩, 3⟩]
    selection_start := some ⟨0, 0⟩
    selection_current := some ⟨100, 100⟩
    selected_lines := {1} }

/-- C8 witness: the marquee at (0,0)-(100,100) selects exactly the
partially-overlapping stroke and drops the previous selection. -/
theorem marquee_selection_spec_witness :
    (c8_state.handle_selection PointerEvent.dragStopped ⟨100, 100⟩).selected_lines = {0} ∧
    (c8_state.handle_selection PointerEvent.dragStopped ⟨100, 100⟩).selection_start = none := by
  have h := marquee_selection_spec c8_state ⟨100, 100⟩ ⟨0, 0⟩ ⟨100, 100⟩ rfl rfl rfl rfl
  refine ⟨?_, h.2.1⟩
  rw [h.1]
  have hbb0 : (c8_state.lines.get? 0).bind line_bbox =
      some ⟨⟨50, 50⟩, ⟨150, 150⟩⟩ := by
    show (line_bbox ⟨[⟨50, 50⟩, ⟨150, 150⟩], ⟨255, 255, 255, 255⟩, 3⟩) = _
    simp only [line_bbox, line_bbox_points, List.foldl_cons, List.foldl_nil,
      Rect.extend_with]
    norm_num [min_def, max_def]
  have hbb1 : (c8_state.lines.get? 1).bind line_bbox =
      some ⟨⟨300, 300⟩, ⟨300, 300⟩⟩ := rfl
  have hp0 : (Rect.from_two_pos ⟨0, 0⟩ ⟨100, 100⟩).intersectsOpt
      ((c8_state.lines.get? 0).bind line_bbox) = true := by
    rw [hbb0]
    simp only [Rect.intersectsOpt, Rect.intersects, Rect.from_two_pos,
      decide_eq_true_eq]
    norm_num [min_def, max_def]
  have hp1 : (Rect.from_two_pos ⟨0, 0⟩ ⟨100, 100⟩).intersectsOpt
      ((c8_state.lines.get? 1).bind line_bbox) = false := by
    rw [hbb1]
    simp only [Rect.intersectsOpt, Rect.intersects, Rect.from_two_pos,
      decide_eq_false_iff_not]
    norm_num [min_def, max_def]
  have hlen : c8_state.lines.length = 2 := rfl
  rw [hlen]
  ext k
  simp only [Finset.mem_filter, Finset.mem_range, Finset.mem_singleton]
  constructor
  · rintro ⟨hk, hsel⟩
    interval_cases k
    · rfl
    · rw [hp1] at hsel
      exact absurd hsel (by simp)
  · rintro rfl
    exact ⟨by norm_num, hp0⟩

/-- Helper: one resize-loop iteration preserves the canvas length. -/
lemma resize_step_length (om nm : Pos2) (sx sy : ℚ) (ls : List Line) (e : Nat × Line) :
    (resize_step om nm sx sy ls e).length = ls.length := by
  unfold resize_step
  cases h : ls.get? e.1 with
  | none => rfl
  | some cur => simp

/-- Helper: the whole resize loop preserves the canvas length. -/
lemma foldl_resize_length (om nm : Pos2) (sx sy : ℚ) (entries : List (Nat × Line)) :
    ∀ ls : List Line, (entries.foldl (resize_step om nm sx sy) ls).length = ls.length := by
  induction entries with
  | nil => intro ls; rfl
  | cons e rest ih =>
      intro ls
      rw [List.foldl_cons, ih, resize_step_length]

/-- Helper: an iteration for another index leaves a stroke untouched. -/
lemma resize_step_get_ne (om nm : Pos2) (sx sy : ℚ) (ls : List Line)
    (e : Nat × Line) (k : Nat) (hne : e.1 ≠ k) :
    (resize_step om nm sx sy ls e).get? k = ls.get? k := by
  unfold resize_step
  cases h : ls.get? e.1 with
  | none => rfl
  | some cur =>
      rw [List.get?_eq_getElem?, List.get?_eq_getElem?, List.getElem?_set_ne hne]

/-- Helper: iterations for other indices leave a stroke untouched. -/
lemma foldl_resize_get_ne (om nm : Pos2) (sx sy : ℚ) (entries : List (Nat × Line))
    (k : Nat) (h : ∀ e ∈ entries, e.1 ≠ k) :
    ∀ ls : List Line, (entries.foldl (resize_step om nm sx sy) ls).get? k = ls.get? k := by
  induction entries with
  | nil => intro ls; rfl
  | cons e rest ih =>
      intro ls
      rw [List.foldl_cons, ih (fun f hf => h f (List.mem_cons_of_mem e hf)),
        resize_step_get_ne om nm sx sy ls e k (h e (List.mem_cons_self e rest))]

/-- Helper: the iteration for a valid index overwrites exactly that
stroke's points with the remap of its snapshot. -/
lemma resize_step_get_self (om nm : Pos2) (sx sy : ℚ) (ls : List Line)
    (idx : Nat) (snap cur : Line) (h : ls.get? idx = some cur) :
    (resize_step om nm sx sy ls (idx, snap)).get? idx =
      some { cur with
        points := remap_resize_points cur.points snap.points om nm sx sy } := by
  have hlt : idx < ls.length := by
    rw [List.get?_eq_getElem?] at h
    exact (List.getElem?_eq_some_iff.mp h).1
  unfold resize_step
  rw [h]
  rw [List.get?_eq_getElem?, List.getElem?_set_self hlt]

/-- Helper: with distinct snapshot indices, the resize loop rewrites each
snapshotted valid index from its own snapshot. -/
lemma foldl_resize_get_mem (om nm : Pos2) (sx sy : ℚ) (entries : List (Nat × Line))
    (ls : List Line) (i : Nat) (orig : Line)
    (hnd : (entries.map Prod.fst).Nodup) (hmem : (i, orig) ∈ entries)
    (hi : i < ls.length) :
    (entries.foldl (resize_step om nm sx sy) ls).get? i =
      some { ls.get ⟨i, hi⟩ with
        points := remap_resize_points (ls.get ⟨i, hi⟩).points orig.points om nm sx sy } := by
  obtain ⟨s, t, rfl⟩ := List.append_of_mem hmem
  have hmap : ((s ++ (i, orig) :: t).map Prod.fst) =
      s.map Prod.fst ++ i :: t.map Prod.fst := by simp
  rw [hmap] at hnd
  obtain ⟨hnds, hndit, hdisj⟩ := List.nodup_append.mp hnd
  have hs : i ∉ s.map Prod.fst := fun hmem2 => hdisj hmem2 (List.mem_cons_self _ _)
  have ht : i ∉ t.map Prod.fst := (List.nodup_cons.mp hndit).1
  rw [List.foldl_append, List.foldl_cons]
  rw [foldl_resize_get_ne om nm sx sy t i
    (fun f hf hfi => ht (hfi ▸ List.mem_map_of_mem Prod.fst hf))]
  have hsame : (s.foldl (resize_step om nm sx sy) ls).get? i = ls.get? i :=
    foldl_resize_get_ne om nm sx sy s i
      (fun f hf hfi => hs (hfi ▸ List.mem_map_of_mem Prod.fst hf)) ls
  have hget : (s.foldl (resize_step om nm sx sy) ls).get? i = some (ls.get ⟨i, hi⟩) :=
    hsame.trans (List.get?_eq_get hi)
  exact resize_step_get_self om nm sx sy _ i orig _ hget

/-- Helper: the remapped point at index `j` is
`new_min + (orig_point - orig_min) * scale` per axis. -/
lemma remap_resize_points_get (om nm : Pos2) (sx sy : ℚ) :
    ∀ (cur orig : List Pos2) (j : Nat) (op : Pos2),
      orig.get? j = some op → j < cur.length →
      (remap_resize_points cur orig om nm sx sy).get? j =
        some ⟨nm.x + (op.x - om.x) * sx, nm.y + (op.y - om.y) * sy⟩ := by
  intro cur
  induction cur with
  | nil =>
      intro orig j op hop hj
      exact absurd hj (by simp)
  | cons c cs ih =>
      intro orig j op hop hj
      cases orig with
      | nil => simp at hop
      | cons o os =>
          cases j with
          | zero =>
              simp only [List.get?] at hop
              cases hop
              rfl
          | succ j =>
              have hrec := ih os j op (by simpa using hop) (by simpa using hj)
              simpa [remap_resize_points] using hrec

/-- C9: during a resize drag every point of every snapshotted selected
stroke is remapped per axis as `new_min + (orig_point - orig_min) * scale`
with `scale = new extent / original extent` (1.0 for a degenerate original
extent); consequently, dragging the bottom-right corner so that the width
doubles while the height is unchanged doubles every point's X distance from
the anchored top-left corner and leaves Y unchanged. -/
theorem update_resizing_spec (st : WhiteboardApp) (pointer_pos : Pos2)
    (corner : ResizeCorner) (bbox : Rect) (i : Nat) (orig : Line)
    (hb : st.resize_original_bbox = some bbox)
    (hnd : (st.resize_original_lines.map Prod.fst).Nodup)
    (hmem : (i, orig) ∈ st.resize_original_lines)
    (hi : i < st.lines.length) :
    ((st.update_resizing pointer_pos corner).lines.get? i =
      some { st.lines.get ⟨i, hi⟩ with
        points := remap_resize_points (st.lines.get ⟨i, hi⟩).points orig.points
          bbox.min (resize_new_bbox corner pointer_pos bbox).min
          (resize_scale_x bbox (resize_new_bbox corner pointer_pos bbox))
          (resize_scale_y bbox (resize_new_bbox corner pointer_pos bbox)) }) ∧
    (∀ (j : Nat) (op : Pos2), orig.points.get? j = some op →
      j < (st.lines.get ⟨i, hi⟩).points.length →
      (remap_resize_points (st.lines.get ⟨i, hi⟩).points orig.points
          bbox.min (resize_new_bbox corner pointer_pos bbox).min
          (resize_scale_x bbox (resize_new_bbox corner pointer_pos bbox))
          (resize_scale_y bbox (resize_new_bbox corner pointer_pos bbox))).get? j =
        some ⟨(resize_new_bbox corner pointer_pos bbox).min.x +
                (op.x - bbox.min.x) *
                  resize_scale_x bbox (resize_new_bbox corner pointer_pos bbox),
              (resize_new_bbox corner pointer_pos bbox).min.y +
                (op.y - bbox.min.y) *
                  resize_scale_y bbox (resize_new_bbox corner pointer_pos bbox)⟩) ∧
    (corner = ResizeCorner.BottomRight → 0 < bbox.width → 0 < bbox.height →
      (resize_new_bbox corner pointer_pos bbox).width = 2 * bbox.width →
      (resize_new_bbox corner pointer_pos bbox).height = bbox.height →
      (resize_new_bbox corner pointer_pos bbox).min = bbox.min ∧
      resize_scale_x bbox (resize_new_bbox corner pointer_pos bbox) = 2 ∧
      resize_scale_y bbox (resize_new_bbox corner pointer_pos bbox) = 1 ∧
      (∀ (j : Nat) (op : Pos2), orig.points.get? j = some op →
        j < (st.lines.get ⟨i, hi⟩).points.length →
        (remap_resize_points (st.lines.get ⟨i, hi⟩).points orig.points
            bbox.min (resize_new_bbox corner pointer_pos bbox).min
            (resize_scale_x bbox (resize_new_bbox corner pointer_pos bbox))
            (resize_scale_y bbox (resize_new_bbox corner pointer_pos bbox))).get? j =
          some ⟨bbox.min.x + 2 * (op.x - bbox.min.x), op.y⟩)) := by
  have hmain : (st.update_resizing pointer_pos corner).lines.get? i =
      some { st.lines.get ⟨i, hi⟩ with
        points := remap_resize_points (st.lines.get ⟨i, hi⟩).points orig.points
          bbox.min (resize_new_bbox corner pointer_pos bbox).min
          (resize_scale_x bbox (resize_new_bbox corner pointer_pos bbox))
          (resize_scale_y bbox (resize_new_bbox corner pointer_pos bbox)) } := by
    unfold WhiteboardApp.update_resizing
    rw [hb]
    exact foldl_resize_get_mem _ _ _ _ _ _ _ _ hnd hmem hi
  refine ⟨hmain, ?_, ?_⟩
  · intro j op hop hj
    exact remap_resize_points_get _ _ _ _ _ _ _ _ hop hj
  · intro hcorner hwpos hhpos hw2 hh1
    subst hcorner
    have hmin : (resize_new_bbox ResizeCorner.BottomRight pointer_pos bbox).min = bbox.min := rfl
    have hsx : resize_scale_x bbox (resize_new_bbox ResizeCorner.BottomRight pointer_pos bbox) = 2 := by
      rw [resize_scale_x, if_pos hwpos, hw2]
      field_simp
    have hsy : resize_scale_y bbox (resize_new_bbox ResizeCorner.BottomRight pointer_pos bbox) = 1 := by
      rw [resize_scale_y, if_pos hhpos, hh1]
      field_simp
    refine ⟨hmin, hsx, hsy, ?_⟩
    intro j op hop hj
    rw [remap_resize_points_get _ _ _ _ _ _ _ _ hop hj]
    rw [hmin, hsx, hsy]
    congr 1
    simp only [Pos2.mk.injEq]
    constructor <;> ring

/-- Concrete stroke for the C9 witness. -/
def c9_line : Line := ⟨[⟨0, 0⟩, ⟨4, 7⟩, ⟨10, 10⟩], ⟨255, 255, 255, 255⟩, 3⟩

/-- Concrete mid-resize state for the C9 witness: bounding box
(0,0)-(10,10), bottom-right corner dragged. -/
def c9_state : WhiteboardApp :=
  { WhiteboardApp.default with
    lines := [c9_line]
    selected_lines := {0}
    resizing_corner := some ResizeCorner.BottomRight
    resize_original_bbox := some ⟨⟨0, 0⟩, ⟨10, 10⟩⟩
    resize_original_lines := [(0, c9_line)] }

/-- C9 witness: dragging the bottom-right corner to (25,15) doubles the
width (scale 2) and keeps the height, mapping (4,7) to (8,7) and (10,10) to
(20,10). -/
theorem update_resizing_spec_witness :
    (c9_state.update_resizing ⟨25, 15⟩ ResizeCorner.BottomRight).lines.get? 0 =
      some ⟨[⟨0, 0⟩, ⟨8, 7⟩, ⟨20, 10⟩], ⟨255, 255, 255, 255⟩, 3⟩ := by
  have h := update_resizing_spec c9_state ⟨25, 15⟩ ResizeCorner.BottomRight
    ⟨⟨0, 0⟩, ⟨10, 10⟩⟩ 0 c9_line rfl (by simp [c9_state])
    (by simp [c9_state]) (by simp [c9_state, c9_line])
  obtain ⟨hmin, hsx, hsy, hform⟩ := h.2.2 rfl (by norm_num [Rect.width])
    (by norm_num [Rect.height]) (by norm_num [resize_new_bbox, Rect.width])
    (by norm_num [resize_new_bbox, Rect.height])
  rw [h.1, hsx, hsy, hmin]
  have hcur : c9_state.lines.get ⟨0, by simp [c9_state]⟩ = c9_line := rfl
  rw [hcur]
  show some { c9_line with
    points := remap_resize_points c9_line.points c9_line.points ⟨0, 0⟩ ⟨0, 0⟩ 2 1 } = _
  simp only [c9_line, remap_resize_points, List.zipWith, List.length_cons,
    List.drop, Line.mk.injEq, Option.some.injEq, List.cons.injEq, Pos2.mk.injEq,
    List.drop_nil]
  norm_num
